import Mathlib

/-!
Shallow embedding of the minesweeper engine from `src/main.rs` (a Rust CLI
minesweeper), together with theorems checking the natural-language
specification against it.

Conventions of the translation:
* Rust `usize` indices become `Nat`.  The only subtraction performed by the
  source (`row_index - 1` guarded by `row_index > 0`) is mirrored literally;
  `Nat` truncated subtraction agrees with it.
* `bombs_around` is a `u8` in the source, produced by `count() as u8` from an
  iterator of at most 9 elements (a clamped 3x3 window), so the cast never
  wraps; we model it as `Nat`.
* The mutable board threads through the functions explicitly; `&mut self`
  methods become functions `Board → ... → Board × result`, folded into the
  `ClearResult` type below.
* `panic!` (the two invariant-violation branches inside `Board::clear`) is
  modelled by the dedicated outcome `ClearResult.panicked`.
* The recursion of `Board::clear` is modelled with explicit fuel
  (`clearFuel`); `clear` instantiates the fuel with `closedSafeCount + 1`,
  an upper bound on the recursion depth (each nesting level first opens a
  closed safe cell), and `clear_no_fuelOut` proves the bound is never hit,
  which is the formal counterpart of termination of the Rust recursion.
* `generate_bombs` (random mine layout) is not modelled; `Board.new` takes
  the boolean mine matrix as an argument, exactly as `Board::new` consumes
  the matrix returned by `generate_bombs`.
-/

namespace Minesweeper

/-- Mirrors `struct CellPosition { row_index: usize, col_index: usize }`;
its derived `PartialEq` compares both fields, i.e. structural equality. -/
structure CellPosition where
  rowIndex : Nat
  colIndex : Nat
deriving DecidableEq, Repr

/-- Mirrors `enum CellState { Bomb { flagged }, Safe { flagged, open } }`. -/
inductive CellState where
  | bomb (flagged : Bool)
  | safe (flagged : Bool) (isOpen : Bool)
deriving DecidableEq, Repr

/-- Mirrors `struct Cell { bombs_around: u8, state: CellState, position: CellPosition }`. -/
structure Cell where
  bombs_around : Nat
  state : CellState
  position : CellPosition
deriving DecidableEq, Repr

/-- The cell matrix owned by `struct Board<const N: usize>`; the Rust type
`[[Cell; N]; N]` forces squareness, which the list model states separately
(`IsSquare`, `WF`) where needed. -/
abbrev Board := List (List Cell)

/-- Mirrors `enum ClearError`. -/
inductive ClearError where
  | ClearedBomb
  | CellNotFound
  | AlreadyCleared
deriving DecidableEq, Repr

/-- Outcome of a `clear` call: `Ok(())`/`Err(e)` with the board after the call
(the Rust board is mutated in place), plus `panicked` for the two `panic!`
branches and `fuelOut` for fuel exhaustion (proved unreachable). -/
inductive ClearResult where
  | ok (board : Board)
  | err (board : Board) (e : ClearError)
  | panicked
  | fuelOut
deriving DecidableEq, Repr

/-- Mirrors `get_cells_around<T, N>`: the flattened sub-rectangle of rows
`[min_row_index, max_row_index]` and columns `[min_col_index, max_col_index]`
clamped against `N - 1`.  Rust takes slices with `.get(range).expect(..)`;
at every call site of the source the position is in bounds and the board is
square, where the slice bounds are valid and `drop`/`take` below produces
exactly the same elements.  The const parameter `N` is `board.length`. -/
def get_cells_around (board : List (List α)) (position : CellPosition) : List α :=
  let row_index := position.rowIndex
  let col_index := position.colIndex
  let n := board.length
  let min_row_index := if row_index > 0 then row_index - 1 else 0
  let max_row_index := if row_index < n - 1 then row_index + 1 else n - 1
  let min_col_index := if col_index > 0 then col_index - 1 else 0
  let max_col_index := if col_index < n - 1 then col_index + 1 else n - 1
  (((board.drop min_row_index).take (max_row_index + 1 - min_row_index)).map
    (fun row => (row.drop min_col_index).take (max_col_index + 1 - min_col_index))).flatten

/-- Mirrors `get_bombs_around`: count the `true` entries of the window. -/
def get_bombs_around (board : List (List Bool)) (position : CellPosition) : Nat :=
  ((get_cells_around board position).filter (fun is_bomb => is_bomb)).length

/-- Mirrors `Cell::new`. -/
def Cell.new (row_index col_index : Nat) (bombs : List (List Bool)) (is_bomb : Bool) : Cell :=
  let position : CellPosition := { rowIndex := row_index, colIndex := col_index }
  { bombs_around := get_bombs_around bombs position
    state := if is_bomb then .bomb false else .safe false false
    position := position }

/-- Mirrors the cell-matrix construction in `Board::new` (the random
`generate_bombs()` result becomes the explicit argument `bombs`). -/
def Board.new (bombs : List (List Bool)) : Board :=
  bombs.enum.map (fun ri_row =>
    ri_row.2.enum.map (fun ci_b => Cell.new ri_row.1 ci_b.1 bombs ci_b.2))

/-- Mirrors `Board::get_cell_mut`s lookup:
`self.board.get_mut(row).and_then(|row| row.get_mut(col))`. -/
def get_cell (board : Board) (position : CellPosition) : Option Cell :=
  board[position.rowIndex]?.bind (fun row => row[position.colIndex]?)

/-- The in-place mutation `cell.state = CellState::Safe { open: true, flagged: false }`
performed through the reference returned by `get_cell_mut`; identity when the
position misses the board (in `clear` it is used only after a successful lookup). -/
def openCell (board : Board) (position : CellPosition) : Board :=
  match board[position.rowIndex]? with
  | none => board
  | some row =>
    match row[position.colIndex]? with
    | none => board
    | some c =>
      board.set position.rowIndex
        (row.set position.colIndex { c with state := .safe false true })

/-- Mirrors `Board::is_won`: no cell is closed-and-safe (`concat` = `flatten`). -/
def is_won (board : Board) : Bool :=
  let cells := board.flatten
  !(cells.any (fun cell =>
    match cell.state with
    | .safe _ false => true
    | _ => false))

/-- Helper predicate: the cell is `Safe` and not yet open (the pattern
`CellState::Safe { open: false, .. }` used by `is_won` and the clear fuel bound). -/
def isClosedSafe (c : Cell) : Bool :=
  match c.state with
  | .safe _ false => true
  | _ => false

/-- Number of closed safe cells; the recursion-depth bound for `clear`. -/
def closedSafeCount (board : Board) : Nat :=
  board.flatten.countP isClosedSafe

/-- The `for cell_around in get_cells_around(..)` loop body of `Board::clear`:
run `step` (a recursive `clear`) on each position in turn, threading the board;
`unwrap_or_else` absorbs `AlreadyCleared` and panics on `CellNotFound` /
`ClearedBomb`. -/
def runClears (step : Board → CellPosition → ClearResult) :
    Board → List CellPosition → ClearResult
  | board, [] => .ok board
  | board, p :: rest =>
    match step board p with
    | .ok board1 => runClears step board1 rest
    | .err board1 e =>
      match e with
      | .CellNotFound => .panicked
      | .ClearedBomb => .panicked
      | .AlreadyCleared => runClears step board1 rest
    | .panicked => .panicked
    | .fuelOut => .fuelOut

/-- Mirrors `Board::clear`, with explicit fuel bounding the recursion depth.
`board` plays the role of `board_before_mutation` (the clone taken before the
mutation) when the neighbor list is computed. -/
def clearFuel : Nat → Board → CellPosition → List CellPosition → ClearResult
  | 0, _, _, _ => .fuelOut
  | fuel + 1, board, position, traversed =>
    if position ∈ traversed then
      .ok board
    else
      match get_cell board position with
      | none => .err board .CellNotFound
      | some cell =>
        match cell.state with
        | .bomb _ => .err board .ClearedBomb
        | .safe _ true => .err board .AlreadyCleared
        | .safe _ false =>
          let board1 := openCell board position
          if cell.bombs_around = 0 then
            let new_traversed := traversed ++ [cell.position]
            runClears (fun b q => clearFuel fuel b q new_traversed) board1
              ((get_cells_around board position).map (fun c => c.position))
          else
            .ok board1

/-- `Board::clear` with the canonical fuel: one more than the number of closed
safe cells, an upper bound on the depth of the Rust recursion (every nesting
step first opens a closed safe cell).  `clear_no_fuelOut` below shows the
bound is never reached. -/
def clear (board : Board) (position : CellPosition) (traversed : List CellPosition) :
    ClearResult :=
  clearFuel (closedSafeCount board + 1) board position traversed

/-! ### Spec-side definitions

The following definitions are written from the specification text, to be
compared with the code-side functions above: §4.1 describes the neighborhood
of a position as "clamping a row range `[row-1, row+1]` and a column range
`[col-1, col+1]` to `[0, N-1]` and taking the cross-product", and §8 speaks
of "the exact count of mine cells among its clamped 3x3 neighborhood minus
itself". -/

/-- Whether the mine matrix holds a mine at `(i, j)` (out of range: no mine). -/
def mineAt (bombs : List (List Bool)) (i j : Nat) : Bool :=
  (bombs[i]?.bind (fun row => row[j]?)).getD false

/-- The integer range `[c-1, c+1]` clamped to `[0, n-1]`, as a list
(`c - 1` is truncated `Nat` subtraction, i.e. the clamp at `0`). -/
def clampedRange (c n : Nat) : List Nat :=
  List.range' (c - 1) (min (c + 1) (n - 1) + 1 - (c - 1))

/-- The spec's clamped 3x3 neighborhood of a position, center included
(§4.1: the cross-product of the two clamped ranges). -/
def specNeighborhood (n : Nat) (p : CellPosition) : List (Nat × Nat) :=
  (clampedRange p.rowIndex n).flatMap
    (fun i => (clampedRange p.colIndex n).map (fun j => (i, j)))

/-- Count of mine cells in the clamped 3x3 neighborhood, center included. -/
def inclusiveMineCount (bombs : List (List Bool)) (p : CellPosition) : Nat :=
  (specNeighborhood bombs.length p).countP (fun ij => mineAt bombs ij.1 ij.2)

/-- Count of mine cells in the clamped 3x3 neighborhood minus the center:
the count named by the spec sentence behind claim C1. -/
def exclusiveMineCount (bombs : List (List Bool)) (p : CellPosition) : Nat :=
  (specNeighborhood bombs.length p).countP
    (fun ij => decide (ij ≠ (p.rowIndex, p.colIndex)) && mineAt bombs ij.1 ij.2)

/-! ### Invariants -/

/-- Discriminator for the `Bomb` variant. -/
def CellState.isBomb : CellState → Bool
  | .bomb _ => true
  | .safe _ _ => false

/-- The `flagged` field common to both variants. -/
def CellState.flaggedBit : CellState → Bool
  | .bomb flagged => flagged
  | .safe flagged _ => flagged

/-- A list matrix with every row as long as the column of rows: the shape
that the Rust array type `[[T; N]; N]` enforces. -/
def IsSquare (m : List (List α)) : Prop :=
  ∀ row ∈ m, row.length = m.length

instance (m : List (List α)) : Decidable (IsSquare m) := by
  unfold IsSquare; infer_instance

/-- The construction invariant at one position: the cell stored at `(i, j)`
carries its own coordinates, the neighbor count computed from the mine
matrix, and a state variant matching the mine matrix. -/
def cellOkAt (bombs : List (List Bool)) (board : Board) (i j : Nat) : Bool :=
  match get_cell board { rowIndex := i, colIndex := j } with
  | none => false
  | some c =>
    decide (c.position = { rowIndex := i, colIndex := j }) &&
    decide (c.bombs_around = get_bombs_around bombs { rowIndex := i, colIndex := j }) &&
    (c.state.isBomb == mineAt bombs i j)

/-- Well-formedness of a board relative to a mine matrix: the shape of
`Board<N>` plus the construction invariant at every position.  `Board.new`
establishes it and `clear` preserves it. -/
def WF (bombs : List (List Bool)) (board : Board) : Prop :=
  board.length = bombs.length ∧
  IsSquare bombs ∧
  (∀ row ∈ board, row.length = bombs.length) ∧
  (∀ i, i < bombs.length → ∀ j, j < bombs.length → cellOkAt bombs board i j = true)

instance (bombs : List (List Bool)) (board : Board) : Decidable (WF bombs board) := by
  unfold WF; infer_instance

/-- Board states reachable from a freshly constructed board by `clear` calls
(both successful and failing ones keep the mutated-in-place board alive). -/
inductive Reaches (bombs : List (List Bool)) : Board → Prop where
  | base : Reaches bombs (Board.new bombs)
  | step_ok (b b1 : Board) (p : CellPosition) (t : List CellPosition) :
      Reaches bombs b → clear b p t = .ok b1 → Reaches bombs b1
  | step_err (b b1 : Board) (p : CellPosition) (t : List CellPosition) (e : ClearError) :
      Reaches bombs b → clear b p t = .err b1 e → Reaches bombs b1

/-! ### Concrete boards and result discriminators used in the theorems -/

/-- Whether a `clear` outcome is `Ok(())`. -/
def isOkResult : ClearResult → Bool
  | .ok _ => true
  | _ => false

/-- Whether a top-level `clear` from an empty traversed list succeeds and
leaves a won board. -/
def clearOpensAll (b : Board) (p : CellPosition) : Bool :=
  match clear b p [] with
  | .ok b1 => is_won b1
  | _ => false

/-- The 5x5 mine-free layout of the spec's cycle-termination property. -/
def noMinesFive : List (List Bool) :=
  List.replicate 5 (List.replicate 5 false)

/-- The 3x3 layout with mines only at (0,0) and (2,2) from the spec's
concrete scenario. -/
def minesCorner3 : List (List Bool) :=
  [[true, false, false], [false, false, false], [false, false, true]]

/-- A 3x3 layout consisting entirely of mines. -/
def allMinesThree : List (List Bool) :=
  List.replicate 3 (List.replicate 3 true)

/-- An ill-formed (but type-correct) 2x2 board: the cell at (0,0) claims
`bombs_around = 0` although (0,1) holds a mine.  Clearing (0,0) runs the
expansion, whose recursive call on (0,1) returns `ClearedBomb` and panics. -/
def badExpansionBoard : Board :=
  [[{ bombs_around := 0, state := .safe false false, position := ⟨0, 0⟩ },
    { bombs_around := 1, state := .bomb false, position := ⟨0, 1⟩ }],
   [{ bombs_around := 1, state := .safe false false, position := ⟨1, 0⟩ },
    { bombs_around := 1, state := .safe false false, position := ⟨1, 1⟩ }]]

/-! ### Slice and range toolkit -/

/-- A `drop`-then-`take` slice visits exactly the indices `[a, a+n)` that are
present in the list. -/
theorem drop_take_eq_filterMap (l : List α) :
    ∀ (n a : Nat), (l.drop a).take n = (List.range' a n).filterMap (fun i => l[i]?) := by
  intro n
  induction n with
  | zero => intro a; simp
  | succ n ih =>
    intro a
    rw [List.range'_succ, List.filterMap_cons]
    by_cases h : a < l.length
    · rw [List.drop_eq_getElem_cons h, List.take_succ_cons, List.getElem?_eq_getElem h]
      rw [ih (a + 1)]
    · have hle : l.length ≤ a := Nat.le_of_not_lt h
      rw [List.drop_eq_nil_of_le hle, List.getElem?_eq_none hle, List.take_nil]
      rw [Eq.comm, List.filterMap_eq_nil_iff]
      intro i hi
      rcases List.mem_range'_1.1 hi with ⟨h1, _⟩
      exact List.getElem?_eq_none (by omega)

/-- Summing over a `filterMap` equals summing the defaulted values. -/
theorem sum_filterMap_getD (f : α → Option Nat) (l : List α) :
    (l.filterMap f).sum = (l.map (fun a => (f a).getD 0)).sum := by
  induction l with
  | nil => rfl
  | cons x xs ih => cases h : f x <;> simp [List.filterMap_cons, h, ih]

/-- Counting over a `filterMap` equals counting the defaulted test. -/
theorem countP_filterMap_getD (q : β → Bool) (f : α → Option β) (l : List α) :
    (l.filterMap f).countP q = l.countP (fun a => ((f a).map q).getD false) := by
  induction l with
  | nil => rfl
  | cons x xs ih =>
    cases h : f x <;> simp [List.filterMap_cons, h, List.countP_cons, ih]

/-- The code's lower clamp (`if row_index > 0 { row_index - 1 } else { 0 }`)
is truncated subtraction. -/
theorem code_lower_clamp (c : Nat) : (if c > 0 then c - 1 else 0) = c - 1 := by
  split <;> omega

/-- The code's upper clamp (`if c < n - 1 { c + 1 } else { n - 1 }`) is a `min`. -/
theorem code_upper_clamp (c n : Nat) : (if c < n - 1 then c + 1 else n - 1) = min (c + 1) (n - 1) := by
  split <;> omega

/-- Characterization of `get_cells_around`: it traverses the spec's clamped
index rectangle, skipping absent rows and columns. -/
theorem get_cells_around_eq (board : List (List α)) (p : CellPosition) :
    get_cells_around board p =
      (((clampedRange p.rowIndex board.length).filterMap (fun i => board[i]?)).map
        (fun row => (clampedRange p.colIndex board.length).filterMap (fun j => row[j]?))).flatten := by
  simp only [get_cells_around, code_lower_clamp, code_upper_clamp]
  rw [clampedRange, clampedRange, drop_take_eq_filterMap]
  congr 1
  exact List.map_congr_left (fun row _ => drop_take_eq_filterMap row _ _)

/-- Refinement for the neighbor-mine count: the code's `get_bombs_around`
computes the spec's center-inclusive count over the clamped 3x3 rectangle. -/
theorem get_bombs_around_eq_inclusive (bombs : List (List Bool)) (p : CellPosition) :
    get_bombs_around bombs p = inclusiveMineCount bombs p := by
  unfold get_bombs_around inclusiveMineCount specNeighborhood
  rw [← List.countP_eq_length_filter, get_cells_around_eq]
  rw [List.countP_flatten, List.map_map, List.countP_flatMap, List.map_filterMap]
  rw [sum_filterMap_getD]
  congr 1
  refine List.map_congr_left (fun i _ => ?_)
  cases h : bombs[i]? with
  | none =>
    simp only [h, Option.map_none', Option.getD_none, Function.comp_apply]
    rw [List.countP_map, Eq.comm, List.countP_eq_zero]
    intro j hj
    simp [mineAt, h]
  | some row =>
    simp only [h, Option.map_some', Option.getD_some, Function.comp_apply]
    rw [List.countP_map, countP_filterMap_getD]
    refine List.countP_congr (fun j hj => ?_)
    cases hr : row[j]? <;> simp [mineAt, h, hr]

/-- Every element returned by `get_cells_around` sits at some position of the
spec's clamped neighborhood rectangle. -/
theorem mem_get_cells_around (board : List (List α)) (p : CellPosition) (x : α)
    (hx : x ∈ get_cells_around board p) :
    ∃ i j, (i, j) ∈ specNeighborhood board.length p ∧
      ∃ row, board[i]? = some row ∧ row[j]? = some x := by
  rw [get_cells_around_eq] at hx
  rcases List.mem_flatten.1 hx with ⟨inner, hinner, hxin⟩
  rcases List.mem_map.1 hinner with ⟨row, hrow, rfl⟩
  rcases List.mem_filterMap.1 hrow with ⟨i, hiR, hrowi⟩
  rcases List.mem_filterMap.1 hxin with ⟨j, hjR, hxj⟩
  refine ⟨i, j, ?_, row, hrowi, hxj⟩
  unfold specNeighborhood
  exact List.mem_flatMap.2 ⟨i, hiR, List.mem_map.2 ⟨j, hjR, rfl⟩⟩

/-- Membership in a clamped range gives its bounds. -/
theorem mem_clampedRange {c n i : Nat} (h : i ∈ clampedRange c n) :
    c - 1 ≤ i ∧ i ≤ min (c + 1) (n - 1) := by
  rw [clampedRange, List.mem_range'_1] at h
  omega

/-- Positions of the clamped neighborhood are in bounds (grids of size ≥ 1). -/
theorem mem_specNeighborhood_lt {n : Nat} {p : CellPosition} {i j : Nat} (hn : 1 ≤ n)
    (h : (i, j) ∈ specNeighborhood n p) : i < n ∧ j < n := by
  unfold specNeighborhood at h
  rcases List.mem_flatMap.1 h with ⟨i0, hi0, hj0⟩
  rcases List.mem_map.1 hj0 with ⟨j0, hj1, heq⟩
  obtain ⟨rfl, rfl⟩ : i0 = i ∧ j0 = j := by
    exact ⟨(Prod.mk.injEq .. ▸ heq).1, (Prod.mk.injEq .. ▸ heq).2⟩
  have h1 := mem_clampedRange hi0
  have h2 := mem_clampedRange hj1
  omega

/-- An in-bounds position belongs to its own clamped neighborhood. -/
theorem center_mem_specNeighborhood {n : Nat} {p : CellPosition}
    (hr : p.rowIndex < n) (hc : p.colIndex < n) :
    (p.rowIndex, p.colIndex) ∈ specNeighborhood n p := by
  unfold specNeighborhood
  refine List.mem_flatMap.2 ⟨p.rowIndex, ?_, List.mem_map.2 ⟨p.colIndex, ?_, rfl⟩⟩ <;>
    · rw [clampedRange, List.mem_range'_1]
      omega

/-- The clamped neighborhood never has more than 9 positions. -/
theorem specNeighborhood_length_le (n : Nat) (p : CellPosition) :
    (specNeighborhood n p).length ≤ 9 := by
  unfold specNeighborhood
  rw [List.length_flatMap]
  have hlen : ∀ c, (clampedRange c n).length ≤ 3 := by
    intro c
    rw [clampedRange, List.length_range']
    omega
  have hb : ∀ x ∈ (clampedRange p.rowIndex n).map
      (List.length ∘ fun i => (clampedRange p.colIndex n).map (fun j => (i, j))), x ≤ 3 := by
    intro x hx
    rcases List.mem_map.1 hx with ⟨i, _, rfl⟩
    simpa using hlen p.colIndex
  calc ((clampedRange p.rowIndex n).map
      (List.length ∘ fun i => (clampedRange p.colIndex n).map (fun j => (i, j)))).sum
      ≤ _ • 3 := List.sum_le_card_nsmul _ 3 hb
    _ ≤ 9 := by
        rw [List.length_map, smul_eq_mul]
        have := hlen p.rowIndex
        omega

/-- Counting with a test that fails on some member leaves room below the length. -/
theorem countP_add_one_le_length {l : List α} {a : α} {pred : α → Bool}
    (ha : a ∈ l) (hpa : pred a = false) : l.countP pred + 1 ≤ l.length := by
  rcases List.append_of_mem ha with ⟨s, t, rfl⟩
  have h1 : s.countP pred ≤ s.length := List.countP_le_length pred
  have h2 : t.countP pred ≤ t.length := List.countP_le_length pred
  simp only [List.countP_append, List.countP_cons, hpa, Bool.false_eq_true, if_false,
    List.length_append, List.length_cons]
  omega

/-- When the center holds no mine, the center-inclusive and center-exclusive
neighborhood counts agree. -/
theorem inclusive_eq_exclusive {bombs : List (List Bool)} {p : CellPosition}
    (hcenter : mineAt bombs p.rowIndex p.colIndex = false) :
    inclusiveMineCount bombs p = exclusiveMineCount bombs p := by
  unfold inclusiveMineCount exclusiveMineCount
  refine List.countP_congr (fun ij hij => ?_)
  by_cases h : ij = (p.rowIndex, p.colIndex)
  · subst h
    simp [hcenter]
  · simp [h]

/-! ### Lookup lemmas for constructed boards -/

theorem mem_of_getElem?_eq_some {l : List α} {i : Nat} {a : α} (h : l[i]? = some a) :
    a ∈ l := by
  rcases List.getElem?_eq_some_iff.1 h with ⟨hlt, rfl⟩
  exact List.getElem_mem hlt

theorem getElem?_Board_new (bombs : List (List Bool)) (i : Nat) :
    (Board.new bombs)[i]? =
      bombs[i]?.map (fun row => row.enum.map (fun jb => Cell.new i jb.1 bombs jb.2)) := by
  unfold Board.new
  rw [List.getElem?_map, List.getElem?_enum]
  cases bombs[i]? <;> rfl

theorem get_cell_Board_new (bombs : List (List Bool)) (p : CellPosition) :
    get_cell (Board.new bombs) p =
      (bombs[p.rowIndex]?.bind (fun row => row[p.colIndex]?)).map
        (fun v => Cell.new p.rowIndex p.colIndex bombs v) := by
  unfold get_cell
  rw [getElem?_Board_new]
  cases h : bombs[p.rowIndex]? with
  | none => rfl
  | some row =>
    simp only [Option.map_some', Option.some_bind]
    rw [List.getElem?_map, List.getElem?_enum]
    cases row[p.colIndex]? <;> rfl

theorem get_cell_eq_some {board : Board} {p : CellPosition} {c : Cell}
    (h : get_cell board p = some c) :
    ∃ row, board[p.rowIndex]? = some row ∧ row[p.colIndex]? = some c := by
  unfold get_cell at h
  cases hr : board[p.rowIndex]? with
  | none => rw [hr] at h; simp at h
  | some row =>
    rw [hr] at h
    exact ⟨row, rfl, by simpa using h⟩

theorem Cell_new_isBomb (i j : Nat) (bombs : List (List Bool)) (v : Bool) :
    (Cell.new i j bombs v).state.isBomb = v := by
  cases v <;> rfl

theorem WF_Board_new (bombs : List (List Bool)) (hsq : IsSquare bombs) :
    WF bombs (Board.new bombs) := by
  refine ⟨?_, hsq, ?_, ?_⟩
  · unfold Board.new
    rw [List.length_map, List.enum_length]
  · intro row hrow
    rcases List.mem_iff_getElem?.1 hrow with ⟨i, hi⟩
    rw [getElem?_Board_new] at hi
    cases hb : bombs[i]? with
    | none => rw [hb] at hi; simp at hi
    | some brow =>
      rw [hb] at hi
      simp only [Option.map_some', Option.some.injEq] at hi
      subst hi
      rw [List.length_map, List.enum_length]
      exact hsq brow (mem_of_getElem?_eq_some hb)
  · intro i hi j hj
    have hrow : bombs[i]? = some (bombs[i]) := List.getElem?_eq_getElem hi
    have hjlen : j < (bombs[i]).length := by
      rw [hsq (bombs[i]) (List.getElem_mem hi)]
      exact hj
    have hv : (bombs[i])[j]? = some ((bombs[i])[j]) := List.getElem?_eq_getElem hjlen
    have hmine : mineAt bombs i j = (bombs[i])[j] := by
      simp [mineAt, hrow, hv]
    unfold cellOkAt
    rw [get_cell_Board_new]
    simp only [hrow, Option.some_bind, hv, Option.map_some']
    cases hb : (bombs[i])[j] <;>
      simp [Cell.new, CellState.isBomb, hmine, hb, get_bombs_around]

/-! ### Lemmas about openCell -/

theorem openCell_length (board : Board) (p : CellPosition) :
    (openCell board p).length = board.length := by
  unfold openCell
  cases hr : board[p.rowIndex]? with
  | none => rfl
  | some row =>
    cases hc : row[p.colIndex]? with
    | none => simp only [hc]
    | some c =>
      simp only [hc]
      exact List.length_set ..

theorem get_cell_openCell_ne_row {board : Board} {p q : CellPosition}
    (h : q.rowIndex ≠ p.rowIndex) : get_cell (openCell board p) q = get_cell board q := by
  unfold openCell
  cases hr : board[p.rowIndex]? with
  | none => rfl
  | some row =>
    cases hc : row[p.colIndex]? with
    | none => simp only [hc]
    | some c =>
      simp only [hc]
      unfold get_cell
      rw [List.getElem?_set, if_neg (fun hh => h hh.symm)]

theorem get_cell_openCell_ne_col {board : Board} {p q : CellPosition}
    (h : q.colIndex ≠ p.colIndex) : get_cell (openCell board p) q = get_cell board q := by
  unfold openCell
  cases hr : board[p.rowIndex]? with
  | none => rfl
  | some row =>
    cases hc : row[p.colIndex]? with
    | none => simp only [hc]
    | some c =>
      simp only [hc]
      unfold get_cell
      rw [List.getElem?_set]
      by_cases hrow : p.rowIndex = q.rowIndex
      · rw [if_pos hrow, if_pos (hrow ▸ (List.getElem?_eq_some_iff.1 hr).1)]
        simp only [Option.some_bind]
        rw [List.getElem?_set, if_neg (fun hh => h hh.symm)]
        rw [← hrow, hr]
        rfl
      · rw [if_neg hrow]

theorem get_cell_openCell_self {board : Board} {p : CellPosition} :
    get_cell (openCell board p) p =
      (get_cell board p).map (fun c => { c with state := .safe false true }) := by
  unfold openCell
  cases hr : board[p.rowIndex]? with
  | none =>
    unfold get_cell
    rw [hr]
    rfl
  | some row =>
    cases hc : row[p.colIndex]? with
    | none =>
      simp only [hc]
      unfold get_cell
      rw [hr]
      simp [hc]
    | some c =>
      simp only [hc]
      unfold get_cell
      have hlt : p.rowIndex < board.length := (List.getElem?_eq_some_iff.1 hr).1
      have hlt2 : p.colIndex < row.length := (List.getElem?_eq_some_iff.1 hc).1
      rw [List.getElem?_set, if_pos rfl, if_pos hlt]
      simp only [Option.some_bind]
      rw [List.getElem?_set, if_pos rfl, if_pos hlt2]
      rw [hr]
      simp [hc]

theorem sum_map_set (l : List α) (f : α → Nat) (n : Nat) (a : α) (h : n < l.length) :
    ((l.set n a).map f).sum + f (l[n]) = (l.map f).sum + f a := by
  induction l generalizing n with
  | nil => simp at h
  | cons x xs ih =>
    cases n with
    | zero =>
      simp only [List.set_cons_zero, List.map_cons, List.sum_cons, List.getElem_cons_zero]
      omega
    | succ n =>
      have h2 : n < xs.length := by simpa using h
      simp only [List.set_cons_succ, List.map_cons, List.sum_cons, List.getElem_cons_succ]
      have := ih n h2
      omega

theorem closedSafeCount_openCell {board : Board} {p : CellPosition} {c : Cell}
    (h : get_cell board p = some c) :
    closedSafeCount (openCell board p) + (if isClosedSafe c then 1 else 0) =
      closedSafeCount board := by
  rcases get_cell_eq_some h with ⟨row, hr, hcol⟩
  have hlt : p.rowIndex < board.length := (List.getElem?_eq_some_iff.1 hr).1
  have hlt2 : p.colIndex < row.length := (List.getElem?_eq_some_iff.1 hcol).1
  have hrow_eq : board[p.rowIndex] = row := by
    have := List.getElem?_eq_getElem hlt
    rw [hr] at this
    exact Option.some_inj.1 this.symm
  have hcell_eq : row[p.colIndex] = c := by
    have := List.getElem?_eq_getElem hlt2
    rw [hcol] at this
    exact Option.some_inj.1 this.symm
  unfold openCell
  simp only [hr, hcol]
  unfold closedSafeCount
  rw [List.countP_flatten, List.countP_flatten]
  have h1 := sum_map_set board (List.countP isClosedSafe) p.rowIndex
    (row.set p.colIndex { c with state := .safe false true }) hlt
  rw [hrow_eq] at h1
  have h2 := List.countP_set isClosedSafe row p.colIndex
    { c with state := .safe false true } hlt2
  rw [hcell_eq] at h2
  have hnc : isClosedSafe { c with state := CellState.safe false true } = false := rfl
  rw [hnc] at h2
  simp only [Bool.false_eq_true, if_false] at h2
  cases hcs : isClosedSafe c with
  | false =>
    rw [hcs] at h2
    simp only [Bool.false_eq_true, if_false, Nat.sub_zero, Nat.add_zero] at h2
    rw [h2] at h1
    simp only [hcs, Bool.false_eq_true, if_false]
    omega
  | true =>
    have h3 : 1 ≤ row.countP isClosedSafe :=
      List.countP_pos_iff.2 ⟨c, hcell_eq ▸ List.getElem_mem hlt2, hcs⟩
    rw [hcs] at h2
    simp only [if_true, Nat.add_zero] at h2
    simp only [hcs, if_true]
    omega

theorem closedSafeCount_openCell_le (board : Board) (p : CellPosition) :
    closedSafeCount (openCell board p) ≤ closedSafeCount board := by
  cases h : get_cell board p with
  | none =>
    unfold openCell
    unfold get_cell at h
    cases hr : board[p.rowIndex]? with
    | none => simp
    | some row =>
      rw [hr] at h
      simp only [Option.some_bind] at h
      simp [h]
  | some c =>
    have := closedSafeCount_openCell h
    omega

theorem WF_openCell {bombs : List (List Bool)} {board : Board} {p : CellPosition} {c : Cell}
    (hwf : WF bombs board) (hc : get_cell board p = some c)
    (hsafe : c.state.isBomb = false) : WF bombs (openCell board p) := by
  obtain ⟨hlen, hsq, hrows, hcells⟩ := hwf
  rcases get_cell_eq_some hc with ⟨row, hr, hcol⟩
  refine ⟨by rw [openCell_length, hlen], hsq, ?_, ?_⟩
  · intro row1 hrow1
    unfold openCell at hrow1
    simp only [hr, hcol] at hrow1
    rcases List.mem_or_eq_of_mem_set hrow1 with hmem | heq
    · exact hrows row1 hmem
    · rw [heq, List.length_set]
      exact hrows row (mem_of_getElem?_eq_some hr)
  · intro i hi j hj
    have hok := hcells i hi j hj
    unfold cellOkAt at hok ⊢
    by_cases hq : (⟨i, j⟩ : CellPosition) = p
    · subst hq
      rw [get_cell_openCell_self, hc]
      rw [hc] at hok
      simp only [Option.map_some']
      simp only [Bool.and_eq_true, decide_eq_true_eq, beq_iff_eq] at hok ⊢
      obtain ⟨⟨hp1, hp2⟩, hp3⟩ := hok
      refine ⟨⟨hp1, hp2⟩, ?_⟩
      rw [← hp3, hsafe]
      rfl
    · have hne : i ≠ p.rowIndex ∨ j ≠ p.colIndex := by
        by_contra hcon
        push_neg at hcon
        exact hq (by cases p; simp_all)
      cases hne with
      | inl hne =>
        rw [@get_cell_openCell_ne_row board p ⟨i, j⟩ hne]
        exact hok
      | inr hne =>
        rw [@get_cell_openCell_ne_col board p ⟨i, j⟩ hne]
        exact hok

/-! ### Core lemmas about clear -/

/-- Unfolding equation for `clearFuel` at positive fuel. -/
theorem clearFuel_succ (fuel : Nat) (board : Board) (position : CellPosition)
    (traversed : List CellPosition) :
    clearFuel (fuel + 1) board position traversed =
      if position ∈ traversed then .ok board
      else
        match get_cell board position with
        | none => .err board .CellNotFound
        | some cell =>
          match cell.state with
          | .bomb _ => .err board .ClearedBomb
          | .safe _ true => .err board .AlreadyCleared
          | .safe _ false =>
            if cell.bombs_around = 0 then
              runClears (fun b q => clearFuel fuel b q (traversed ++ [cell.position]))
                (openCell board position)
                ((get_cells_around board position).map (fun c => c.position))
            else .ok (openCell board position) := rfl

/-- The neighbor loop never surfaces an `Err`: nested errors are either
absorbed (`AlreadyCleared`) or turned into panics. -/
theorem runClears_ne_err (step : Board → CellPosition → ClearResult) :
    ∀ (ps : List CellPosition) (b b1 : Board) (e : ClearError),
      runClears step b ps ≠ .err b1 e := by
  intro ps
  induction ps with
  | nil => intro b b1 e h; exact ClearResult.noConfusion h
  | cons p rest ih =>
    intro b b1 e h
    unfold runClears at h
    cases hs : step b p with
    | ok b2 => rw [hs] at h; exact ih b2 b1 e h
    | err b2 e2 =>
      rw [hs] at h
      cases e2 with
      | CellNotFound => exact ClearResult.noConfusion h
      | ClearedBomb => exact ClearResult.noConfusion h
      | AlreadyCleared => exact ih b2 b1 e h
    | panicked => rw [hs] at h; exact ClearResult.noConfusion h
    | fuelOut => rw [hs] at h; exact ClearResult.noConfusion h

/-- An `Err` outcome of `clearFuel` is produced by one of the three checks at
the head of the call, before any mutation: the board is returned unchanged and
the error matches the cell lookup. -/
theorem clearFuel_err_elim {fuel : Nat} {b : Board} {p : CellPosition}
    {t : List CellPosition} {b1 : Board} {e : ClearError}
    (h : clearFuel fuel b p t = .err b1 e) :
    b1 = b ∧ p ∉ t ∧
      ((e = .CellNotFound ∧ get_cell b p = none) ∨
       (∃ c f, e = .ClearedBomb ∧ get_cell b p = some c ∧ c.state = .bomb f) ∨
       (∃ c f, e = .AlreadyCleared ∧ get_cell b p = some c ∧ c.state = .safe f true)) := by
  cases fuel with
  | zero => exact ClearResult.noConfusion h
  | succ fuel =>
    rw [clearFuel_succ] at h
    split at h
    · exact ClearResult.noConfusion h
    · rename_i hmem
      split at h
      · rename_i hg
        injection h with h1 h2
        exact ⟨h1.symm, hmem, Or.inl ⟨h2.symm, hg⟩⟩
      · rename_i cell hg
        split at h
        · rename_i f hst
          injection h with h1 h2
          exact ⟨h1.symm, hmem, Or.inr (Or.inl ⟨cell, f, h2.symm, hg, hst⟩)⟩
        · rename_i f hst
          injection h with h1 h2
          exact ⟨h1.symm, hmem, Or.inr (Or.inr ⟨cell, f, h2.symm, hg, hst⟩)⟩
        · split at h
          · exact absurd h (runClears_ne_err _ _ _ _ _)
          · exact ClearResult.noConfusion h

/-- The neighbor loop never increases the number of closed safe cells,
provided the step does not. -/
theorem runClears_count_le (step : Board → CellPosition → ClearResult)
    (hok : ∀ b q b1, step b q = .ok b1 → closedSafeCount b1 ≤ closedSafeCount b)
    (herr : ∀ b q b1 e, step b q = .err b1 e → closedSafeCount b1 ≤ closedSafeCount b) :
    ∀ (ps : List CellPosition) (b b1 : Board),
      runClears step b ps = .ok b1 → closedSafeCount b1 ≤ closedSafeCount b := by
  intro ps
  induction ps with
  | nil =>
    intro b b1 h
    cases h
    exact Nat.le_refl _
  | cons p rest ih =>
    intro b b1 h
    unfold runClears at h
    cases hs : step b p with
    | ok b2 => rw [hs] at h; exact Nat.le_trans (ih b2 b1 h) (hok b p b2 hs)
    | err b2 e =>
      rw [hs] at h
      cases e with
      | CellNotFound => exact ClearResult.noConfusion h
      | ClearedBomb => exact ClearResult.noConfusion h
      | AlreadyCleared => exact Nat.le_trans (ih b2 b1 h) (herr b p b2 _ hs)
    | panicked => rw [hs] at h; exact ClearResult.noConfusion h
    | fuelOut => rw [hs] at h; exact ClearResult.noConfusion h

/-- A successful `clearFuel` call never increases the closed-safe count
(it only ever opens cells). -/
theorem clearFuel_count_le :
    ∀ (fuel : Nat) (b : Board) (p : CellPosition) (t : List CellPosition) (b1 : Board),
      clearFuel fuel b p t = .ok b1 → closedSafeCount b1 ≤ closedSafeCount b := by
  intro fuel
  induction fuel with
  | zero => intro b p t b1 h; exact ClearResult.noConfusion h
  | succ fuel ih =>
    intro b p t b1 h
    rw [clearFuel_succ] at h
    split at h
    · injection h with h1
      rw [← h1]
    · split at h
      · exact ClearResult.noConfusion h
      · split at h
        · exact ClearResult.noConfusion h
        · exact ClearResult.noConfusion h
        · split at h
          · have hle := runClears_count_le _
              (fun b2 q b3 hh => ih b2 q _ b3 hh)
              (fun b2 q b3 e hh =>
                Nat.le_of_eq (congrArg closedSafeCount (clearFuel_err_elim hh).1))
              _ _ _ h
            exact Nat.le_trans hle (closedSafeCount_openCell_le b p)
          · injection h with h1
            rw [← h1]
            exact closedSafeCount_openCell_le b p

/-- The neighbor loop cannot run out of fuel when the step has enough fuel
for any board at most as open as the current one. -/
theorem runClears_ne_fuelOut (step : Board → CellPosition → ClearResult) (F : Nat)
    (hok : ∀ b q b1, step b q = .ok b1 → closedSafeCount b1 ≤ closedSafeCount b)
    (herr : ∀ b q b1 e, step b q = .err b1 e → closedSafeCount b1 ≤ closedSafeCount b)
    (hfuel : ∀ b q, closedSafeCount b + 1 ≤ F → step b q ≠ .fuelOut) :
    ∀ (ps : List CellPosition) (b : Board),
      closedSafeCount b + 1 ≤ F → runClears step b ps ≠ .fuelOut := by
  intro ps
  induction ps with
  | nil => intro b hb h; exact ClearResult.noConfusion h
  | cons p rest ih =>
    intro b hb h
    unfold runClears at h
    cases hs : step b p with
    | ok b2 =>
      rw [hs] at h
      exact ih b2 (by have := hok b p b2 hs; omega) h
    | err b2 e =>
      rw [hs] at h
      cases e with
      | CellNotFound => exact ClearResult.noConfusion h
      | ClearedBomb => exact ClearResult.noConfusion h
      | AlreadyCleared => exact ih b2 (by have := herr b p b2 _ hs; omega) h
    | panicked => rw [hs] at h; exact ClearResult.noConfusion h
    | fuelOut => exact hfuel b p hb hs

/-- With fuel exceeding the closed-safe count, `clearFuel` never runs out:
the recursion depth of `Board::clear` is bounded by the number of closed
safe cells (each nesting level first opens one). -/
theorem clearFuel_ne_fuelOut :
    ∀ (fuel : Nat) (b : Board) (p : CellPosition) (t : List CellPosition),
      closedSafeCount b + 1 ≤ fuel → clearFuel fuel b p t ≠ .fuelOut := by
  intro fuel
  induction fuel with
  | zero => intro b p t hb; exact absurd hb (by omega)
  | succ fuel ih =>
    intro b p t hb h
    rw [clearFuel_succ] at h
    split at h
    · exact ClearResult.noConfusion h
    · split at h
      · exact ClearResult.noConfusion h
      · rename_i cell hg
        split at h
        · exact ClearResult.noConfusion h
        · exact ClearResult.noConfusion h
        · rename_i f hst
          split at h
          · have hcell : isClosedSafe cell = true := by
              unfold isClosedSafe
              rw [hst]
            have hcount : closedSafeCount (openCell b p) + 1 = closedSafeCount b := by
              have := closedSafeCount_openCell hg
              simpa [hcell] using this
            refine runClears_ne_fuelOut _ fuel
              (fun b2 q b3 hh => clearFuel_count_le fuel b2 q _ b3 hh)
              (fun b2 q b3 e hh =>
                Nat.le_of_eq (congrArg closedSafeCount (clearFuel_err_elim hh).1))
              (fun b2 q hb2 => ih b2 q _ hb2)
              _ _ ?_ h
            omega
          · exact ClearResult.noConfusion h

/-- Generic invariant preservation through the neighbor loop. -/
theorem runClears_preserves (P : Board → Prop) (step : Board → CellPosition → ClearResult)
    (hok : ∀ b q b1, P b → step b q = .ok b1 → P b1)
    (herr : ∀ b q b1 e, P b → step b q = .err b1 e → P b1) :
    ∀ (ps : List CellPosition) (b b1 : Board),
      P b → runClears step b ps = .ok b1 → P b1 := by
  intro ps
  induction ps with
  | nil =>
    intro b b1 hP h
    cases h
    exact hP
  | cons p rest ih =>
    intro b b1 hP h
    unfold runClears at h
    cases hs : step b p with
    | ok b2 => rw [hs] at h; exact ih b2 b1 (hok b p b2 hP hs) h
    | err b2 e =>
      rw [hs] at h
      cases e with
      | CellNotFound => exact ClearResult.noConfusion h
      | ClearedBomb => exact ClearResult.noConfusion h
      | AlreadyCleared => exact ih b2 b1 (herr b p b2 _ hP hs) h
    | panicked => rw [hs] at h; exact ClearResult.noConfusion h
    | fuelOut => rw [hs] at h; exact ClearResult.noConfusion h

/-- Any board property preserved by `openCell` is preserved by `clearFuel`
(both for successful calls and for failing calls, which leave the board as
it was). -/
theorem clearFuel_preserves (P : Board → Prop)
    (hopen : ∀ b p, P b → P (openCell b p)) :
    ∀ (fuel : Nat) (b : Board) (p : CellPosition) (t : List CellPosition) (b1 : Board),
      P b → clearFuel fuel b p t = .ok b1 → P b1 := by
  intro fuel
  induction fuel with
  | zero => intro b p t b1 _ h; exact ClearResult.noConfusion h
  | succ fuel ih =>
    intro b p t b1 hP h
    rw [clearFuel_succ] at h
    split at h
    · injection h with h1
      exact h1 ▸ hP
    · split at h
      · exact ClearResult.noConfusion h
      · split at h
        · exact ClearResult.noConfusion h
        · exact ClearResult.noConfusion h
        · split at h
          · exact runClears_preserves P _
              (fun b2 q b3 hP2 hh => ih b2 q _ b3 hP2 hh)
              (fun b2 q b3 e hP2 hh => (clearFuel_err_elim hh).1 ▸ hP2)
              _ _ _ (hopen b p hP) h
          · injection h with h1
            exact h1 ▸ hopen b p hP

/-- Unpacking the construction invariant at an in-bounds position. -/
theorem WF_get_cell {bombs : List (List Bool)} {b : Board} (hwf : WF bombs b)
    {q : CellPosition} (h1 : q.rowIndex < bombs.length) (h2 : q.colIndex < bombs.length) :
    ∃ c, get_cell b q = some c ∧ c.position = q ∧
      c.bombs_around = get_bombs_around bombs q ∧
      c.state.isBomb = mineAt bombs q.rowIndex q.colIndex := by
  rcases q with ⟨i, j⟩
  have hok := hwf.2.2.2 i h1 j h2
  unfold cellOkAt at hok
  cases hg : get_cell b { rowIndex := i, colIndex := j } with
  | none => rw [hg] at hok; exact Bool.noConfusion hok
  | some c =>
    rw [hg] at hok
    simp only [Bool.and_eq_true, decide_eq_true_eq, beq_iff_eq] at hok
    exact ⟨c, rfl, hok.1.1, hok.1.2, hok.2⟩

/-- The neighbor loop under the construction invariant: if every listed
position is in bounds and mine-free, the loop completes with `Ok`, keeps the
invariant, and can only shrink the closed-safe count. -/
theorem runClears_WF (bombs : List (List Bool)) (step : Board → CellPosition → ClearResult)
    (C : Nat)
    (hstep : ∀ b q, WF bombs b → closedSafeCount b ≤ C →
      q.rowIndex < bombs.length → q.colIndex < bombs.length →
      mineAt bombs q.rowIndex q.colIndex = false →
      (∃ b1, step b q = .ok b1 ∧ WF bombs b1 ∧ closedSafeCount b1 ≤ closedSafeCount b) ∨
        step b q = .err b .AlreadyCleared) :
    ∀ (ps : List CellPosition) (b : Board),
      (∀ q ∈ ps, q.rowIndex < bombs.length ∧ q.colIndex < bombs.length ∧
        mineAt bombs q.rowIndex q.colIndex = false) →
      WF bombs b → closedSafeCount b ≤ C →
      ∃ b1, runClears step b ps = .ok b1 ∧ WF bombs b1 ∧
        closedSafeCount b1 ≤ closedSafeCount b := by
  intro ps
  induction ps with
  | nil => intro b _ hwf _; exact ⟨b, rfl, hwf, Nat.le_refl _⟩
  | cons p rest ih =>
    intro b hq hwf hc
    obtain ⟨h1, h2, h3⟩ := hq p (List.mem_cons_self ..)
    rcases hstep b p hwf hc h1 h2 h3 with ⟨b2, hs, hwf2, hc2⟩ | hs
    · obtain ⟨b1, hrun, hwf1, hc1⟩ :=
        ih b2 (fun q hq2 => hq q (List.mem_cons_of_mem _ hq2)) hwf2 (Nat.le_trans hc2 hc)
      refine ⟨b1, ?_, hwf1, Nat.le_trans hc1 hc2⟩
      unfold runClears
      rw [hs]
      exact hrun
    · obtain ⟨b1, hrun, hwf1, hc1⟩ :=
        ih b (fun q hq2 => hq q (List.mem_cons_of_mem _ hq2)) hwf hc
      refine ⟨b1, ?_, hwf1, hc1⟩
      unfold runClears
      rw [hs]
      exact hrun

/-- Master lemma: on a well-formed board with adequate fuel, `clearFuel`
either succeeds (keeping the invariant, opening cells only) or fails with
one of the three front errors, leaving the board untouched.  In particular
it never reaches the `panic!` branches and never exhausts the fuel. -/
theorem clearFuel_WF (bombs : List (List Bool)) :
    ∀ (fuel : Nat) (b : Board) (p : CellPosition) (t : List CellPosition),
      WF bombs b → closedSafeCount b + 1 ≤ fuel →
      (∃ b1, clearFuel fuel b p t = .ok b1 ∧ WF bombs b1 ∧
        closedSafeCount b1 ≤ closedSafeCount b) ∨
      (∃ e, clearFuel fuel b p t = .err b e) := by
  intro fuel
  induction fuel with
  | zero => intro b p t hwf hb; exact absurd hb (by omega)
  | succ fuel ih =>
    intro b p t hwf hb
    by_cases hmem : p ∈ t
    · have heq : clearFuel (fuel + 1) b p t = .ok b := by
        rw [clearFuel_succ, if_pos hmem]
      exact Or.inl ⟨b, heq, hwf, Nat.le_refl _⟩
    · cases hg : get_cell b p with
      | none =>
        have heq : clearFuel (fuel + 1) b p t = .err b .CellNotFound := by
          rw [clearFuel_succ, if_neg hmem]
          simp only [hg]
        exact Or.inr ⟨.CellNotFound, heq⟩
      | some cell =>
        cases hst : cell.state with
        | bomb f =>
          have heq : clearFuel (fuel + 1) b p t = .err b .ClearedBomb := by
            rw [clearFuel_succ, if_neg hmem]
            simp only [hg, hst]
          exact Or.inr ⟨.ClearedBomb, heq⟩
        | safe f o =>
          cases o with
          | true =>
            have heq : clearFuel (fuel + 1) b p t = .err b .AlreadyCleared := by
              rw [clearFuel_succ, if_neg hmem]
              simp only [hg, hst]
            exact Or.inr ⟨.AlreadyCleared, heq⟩
          | false =>
            have hsafeB : cell.state.isBomb = false := by rw [hst]; rfl
            have hwf1 : WF bombs (openCell b p) := WF_openCell hwf hg hsafeB
            have hcell : isClosedSafe cell = true := by
              unfold isClosedSafe
              rw [hst]
            have hcount : closedSafeCount (openCell b p) + 1 = closedSafeCount b := by
              have := closedSafeCount_openCell hg
              simpa [hcell] using this
            rcases get_cell_eq_some hg with ⟨prow, hpr, hpc⟩
            have hp1 : p.rowIndex < bombs.length :=
              hwf.1 ▸ (List.getElem?_eq_some_iff.1 hpr).1
            have hp2 : p.colIndex < bombs.length := by
              have hlt := (List.getElem?_eq_some_iff.1 hpc).1
              rw [hwf.2.2.1 prow (mem_of_getElem?_eq_some hpr)] at hlt
              exact hlt
            by_cases hz : cell.bombs_around = 0
            · have heq : clearFuel (fuel + 1) b p t =
                  runClears (fun b2 q => clearFuel fuel b2 q (t ++ [cell.position]))
                    (openCell b p) ((get_cells_around b p).map (fun c => c.position)) := by
                rw [clearFuel_succ, if_neg hmem]
                simp only [hg, hst, if_pos hz]
              -- the cleared cell's stored count is the neighborhood mine count
              obtain ⟨c0, hgc0, _, hba0, _⟩ := WF_get_cell hwf hp1 hp2
              have hc0 : c0 = cell := by
                rw [hg] at hgc0
                exact (Option.some_inj.1 hgc0).symm
              have hincl : inclusiveMineCount bombs p = 0 := by
                rw [← get_bombs_around_eq_inclusive, ← hba0, hc0, hz]
              -- neighbor positions are in bounds and mine-free
              have hnb : ∀ q ∈ ((get_cells_around b p).map (fun c => c.position)),
                  q.rowIndex < bombs.length ∧ q.colIndex < bombs.length ∧
                  mineAt bombs q.rowIndex q.colIndex = false := by
                intro q hqmem
                rcases List.mem_map.1 hqmem with ⟨c2, hc2mem, rfl⟩
                rcases mem_get_cells_around b p c2 hc2mem with ⟨i, j, hij, row2, hrow2, hcell2⟩
                rw [hwf.1] at hij
                have hn1 : 1 ≤ bombs.length := by omega
                obtain ⟨hi, hj⟩ := mem_specNeighborhood_lt hn1 hij
                obtain ⟨c3, hgc3, hpos3, _, _⟩ := @WF_get_cell bombs b hwf ⟨i, j⟩ hi hj
                have hgc2 : get_cell b { rowIndex := i, colIndex := j } = some c2 := by
                  unfold get_cell
                  rw [hrow2]
                  simpa using hcell2
                have hc23 : c3 = c2 := by
                  rw [hgc2] at hgc3
                  exact (Option.some_inj.1 hgc3).symm
                rw [← hc23, hpos3]
                refine ⟨hi, hj, ?_⟩
                have := List.countP_eq_zero.1 hincl (i, j) hij
                simpa using this
              -- each recursive call either opens cells or is an absorbed retry
              have hstep : ∀ b2 q, WF bombs b2 →
                  closedSafeCount b2 ≤ closedSafeCount (openCell b p) →
                  q.rowIndex < bombs.length → q.colIndex < bombs.length →
                  mineAt bombs q.rowIndex q.colIndex = false →
                  (∃ b3, clearFuel fuel b2 q (t ++ [cell.position]) = .ok b3 ∧
                    WF bombs b3 ∧ closedSafeCount b3 ≤ closedSafeCount b2) ∨
                    clearFuel fuel b2 q (t ++ [cell.position]) = .err b2 .AlreadyCleared := by
                intro b2 q hwf2 hcb2 hq1 hq2 hq3
                have hfuel2 : closedSafeCount b2 + 1 ≤ fuel := by omega
                rcases ih b2 q (t ++ [cell.position]) hwf2 hfuel2 with hokc | ⟨e, herrc⟩
                · exact Or.inl hokc
                · rcases (clearFuel_err_elim herrc).2.2 with
                    ⟨he, hnone⟩ | ⟨c2, f2, he, hsome, hbomb⟩ | ⟨c2, f2, he, hsome, hopen2⟩
                  · obtain ⟨c3, hgc3, _, _, _⟩ := WF_get_cell hwf2 hq1 hq2
                    rw [hnone] at hgc3
                    exact Option.noConfusion hgc3
                  · obtain ⟨c3, hgc3, _, _, hmine3⟩ := WF_get_cell hwf2 hq1 hq2
                    rw [hsome] at hgc3
                    have hc23 : c3 = c2 := (Option.some_inj.1 hgc3).symm
                    rw [hc23, hbomb] at hmine3
                    rw [hq3] at hmine3
                    exact Bool.noConfusion hmine3
                  · rw [he] at herrc
                    exact Or.inr herrc
              obtain ⟨b1, hrun, hwfr, hcr⟩ := runClears_WF bombs _
                (closedSafeCount (openCell b p)) hstep _ _ hnb hwf1 (Nat.le_refl _)
              refine Or.inl ⟨b1, ?_, hwfr, by omega⟩
              rw [heq]
              exact hrun
            · have heq : clearFuel (fuel + 1) b p t = .ok (openCell b p) := by
                rw [clearFuel_succ, if_neg hmem]
                simp only [hg, hst, if_neg hz]
              exact Or.inl ⟨openCell b p, heq, hwf1, by omega⟩

/-- Every reachable board state is well-formed. -/
theorem WF_Reaches {bombs : List (List Bool)} {b : Board} (hsq : IsSquare bombs)
    (hr : Reaches bombs b) : WF bombs b := by
  induction hr with
  | base => exact WF_Board_new bombs hsq
  | step_ok b0 b1 p t _ hstep ih =>
    unfold clear at hstep
    rcases clearFuel_WF bombs (closedSafeCount b0 + 1) b0 p t ih (Nat.le_refl _) with
      ⟨b2, hok, hwf2, _⟩ | ⟨e, herr⟩
    · rw [hok] at hstep
      injection hstep with h1
      exact h1 ▸ hwf2
    · rw [herr] at hstep
      exact ClearResult.noConfusion hstep
  | step_err b0 b1 p t e _ hstep ih =>
    unfold clear at hstep
    exact (clearFuel_err_elim hstep).1 ▸ ih

/-- Every cell of a freshly constructed board comes from `Cell.new`. -/
theorem Board_new_cells {bombs : List (List Bool)} {c : Cell}
    (hc : c ∈ (Board.new bombs).flatten) : ∃ i j v, c = Cell.new i j bombs v := by
  rcases List.mem_flatten.1 hc with ⟨row, hrow, hcrow⟩
  unfold Board.new at hrow
  rcases List.mem_map.1 hrow with ⟨pr, _, rfl⟩
  rcases List.mem_map.1 hcrow with ⟨jb, _, rfl⟩
  exact ⟨pr.1, jb.1, jb.2, rfl⟩

/-- Construction leaves every cell unflagged. -/
theorem unflagged_Board_new (bombs : List (List Bool)) :
    ∀ c ∈ (Board.new bombs).flatten, c.state.flaggedBit = false := by
  intro c hc
  rcases Board_new_cells hc with ⟨i, j, v, rfl⟩
  cases v <;> rfl

/-- Opening a cell keeps every cell unflagged. -/
theorem unflagged_openCell {b : Board} (p : CellPosition)
    (h : ∀ c ∈ b.flatten, c.state.flaggedBit = false) :
    ∀ c ∈ (openCell b p).flatten, c.state.flaggedBit = false := by
  intro c hc
  unfold openCell at hc
  cases hr : b[p.rowIndex]? with
  | none =>
    rw [hr] at hc
    exact h c hc
  | some row =>
    cases hc2 : row[p.colIndex]? with
    | none =>
      simp only [hr, hc2] at hc
      exact h c hc
    | some c0 =>
      simp only [hr, hc2] at hc
      rcases List.mem_flatten.1 hc with ⟨row1, hrow1, hcrow1⟩
      rcases List.mem_or_eq_of_mem_set hrow1 with hm | rfl
      · exact h c (List.mem_flatten.2 ⟨row1, hm, hcrow1⟩)
      · rcases List.mem_or_eq_of_mem_set hcrow1 with hm2 | rfl
        · exact h c (List.mem_flatten.2 ⟨row, mem_of_getElem?_eq_some hr, hm2⟩)
        · rfl

/-- No reachable board state holds a flagged cell: construction starts
all-unflagged and opening always writes `flagged: false`. -/
theorem unflagged_Reaches {bombs : List (List Bool)} {b : Board}
    (hr : Reaches bombs b) : ∀ c ∈ b.flatten, c.state.flaggedBit = false := by
  induction hr with
  | base => exact unflagged_Board_new bombs
  | step_ok b0 b1 p t _ hstep ih =>
    unfold clear at hstep
    exact clearFuel_preserves (fun bb => ∀ c ∈ bb.flatten, c.state.flaggedBit = false)
      (fun bb q hq => unflagged_openCell q hq) _ b0 p t b1 ih hstep
  | step_err b0 b1 p t e _ hstep ih =>
    unfold clear at hstep
    exact (clearFuel_err_elim hstep).1 ▸ ih

/-- On a square board an out-of-bounds position has no cell. -/
theorem get_cell_none_of_oob {b : Board} {p : CellPosition}
    (hsq : ∀ row ∈ b, row.length = b.length)
    (h : b.length ≤ p.rowIndex ∨ b.length ≤ p.colIndex) : get_cell b p = none := by
  unfold get_cell
  cases h with
  | inl h => rw [List.getElem?_eq_none h]; rfl
  | inr h =>
    cases hr : b[p.rowIndex]? with
    | none => rfl
    | some row =>
      simp only [Option.some_bind]
      exact List.getElem?_eq_none (by rw [hsq row (mem_of_getElem?_eq_some hr)]; exact h)

/-! ### Claim theorems -/

/-- Claim C1, amended.  For every board built by `Board.new` from a square
mine matrix and every position of the grid, `bombs_around` equals the exact
count of mine cells among the clamped 3x3 neighborhood INCLUDING the center
cell itself, and lies in `[0, 9]`; for Safe cells (whose center holds no
mine) it therefore equals the count excluding the center and lies in
`[0, 8]`.  The claim as frozen (center always excluded, bound 8 for all
cells) fails on mine cells, see `C1_counterexample`. -/
theorem C1_bombs_around_spec :
    ∀ (bombs : List (List Bool)) (p : CellPosition) (c : Cell),
      IsSquare bombs → get_cell (Board.new bombs) p = some c →
      c.bombs_around = inclusiveMineCount bombs p ∧ c.bombs_around ≤ 9 ∧
      (c.state.isBomb = false →
        c.bombs_around = exclusiveMineCount bombs p ∧ c.bombs_around ≤ 8) := by
  intro bombs p c hsq h
  rw [get_cell_Board_new] at h
  cases hb : bombs[p.rowIndex]? with
  | none =>
    rw [hb] at h
    exact Option.noConfusion h
  | some row =>
    rw [hb] at h
    simp only [Option.some_bind] at h
    cases hv : row[p.colIndex]? with
    | none =>
      rw [hv] at h
      exact Option.noConfusion h
    | some v =>
      rw [hv] at h
      simp only [Option.map_some', Option.some.injEq] at h
      subst h
      have hp1 : p.rowIndex < bombs.length := (List.getElem?_eq_some_iff.1 hb).1
      have hp2 : p.colIndex < bombs.length := by
        have hlt := (List.getElem?_eq_some_iff.1 hv).1
        rw [hsq row (mem_of_getElem?_eq_some hb)] at hlt
        exact hlt
      have hmine : mineAt bombs p.rowIndex p.colIndex = v := by
        simp [mineAt, hb, hv]
      have hba : (Cell.new p.rowIndex p.colIndex bombs v).bombs_around =
          inclusiveMineCount bombs p := by
        show get_bombs_around bombs { rowIndex := p.rowIndex, colIndex := p.colIndex } = _
        exact get_bombs_around_eq_inclusive bombs p
      have hlen := specNeighborhood_length_le bombs.length p
      have hle9 : inclusiveMineCount bombs p ≤ 9 :=
        Nat.le_trans (List.countP_le_length _) hlen
      refine ⟨hba, by omega, ?_⟩
      intro hsafe
      rw [Cell_new_isBomb] at hsafe
      subst hsafe
      have hex : inclusiveMineCount bombs p = exclusiveMineCount bombs p :=
        inclusive_eq_exclusive hmine
      have hcen : (p.rowIndex, p.colIndex) ∈ specNeighborhood bombs.length p :=
        center_mem_specNeighborhood hp1 hp2
      refine ⟨hba.trans hex, ?_⟩
      rw [hba, hex]
      unfold exclusiveMineCount
      have h8 : (specNeighborhood bombs.length p).countP
            (fun ij => decide (ij ≠ (p.rowIndex, p.colIndex)) && mineAt bombs ij.1 ij.2) + 1 ≤
          (specNeighborhood bombs.length p).length :=
        countP_add_one_le_length hcen (by simp)
      omega

/-- Counterexample to claim C1 as frozen: on the all-mine 3x3 board the
center cell's `bombs_around` is 9 — it is not in `[0, 8]` and differs from
the center-exclusive neighborhood count, which is 8 (the code's
`get_bombs_around` counts the center cell itself when it is a mine). -/
theorem C1_counterexample :
    (get_cell (Board.new allMinesThree) ⟨1, 1⟩).map Cell.bombs_around = some 9 ∧
    exclusiveMineCount allMinesThree ⟨1, 1⟩ = 8 := by
  decide

/-- Witness for C1: the amended statement applied to the 1x1 mine-free board. -/
theorem C1_witness :
    (Cell.new 0 0 [[false]] false).bombs_around = inclusiveMineCount [[false]] ⟨0, 0⟩ ∧
    (Cell.new 0 0 [[false]] false).bombs_around ≤ 9 ∧
    ((Cell.new 0 0 [[false]] false).state.isBomb = false →
      (Cell.new 0 0 [[false]] false).bombs_around = exclusiveMineCount [[false]] ⟨0, 0⟩ ∧
      (Cell.new 0 0 [[false]] false).bombs_around ≤ 8) :=
  C1_bombs_around_spec [[false]] ⟨0, 0⟩ (Cell.new 0 0 [[false]] false) (by decide) (by decide)

/-- Claim C2.  On the 5x5 board with no mines, clearing any single cell with
an empty traversed list returns `Ok` and leaves `is_won` true (the flood fill
opens every cell); the call terminates, which the total model expresses by
its result being an actual `Ok` rather than the fuel sentinel. -/
theorem C2_five_no_mines_clears_all :
    ∀ i, i < 5 → ∀ j, j < 5 → clearOpensAll (Board.new noMinesFive) ⟨i, j⟩ = true := by
  decide

/-- Witness for C2 at cell (0, 0). -/
theorem C2_witness : 0 < 5 ∧ clearOpensAll (Board.new noMinesFive) ⟨0, 0⟩ = true :=
  ⟨by decide, C2_five_no_mines_clears_all 0 (by decide) 0 (by decide)⟩

/-- Claim C3, amended.  A top-level `clear` with an empty traversed list
returns `CellNotFound` on out-of-bounds positions, `ClearedBomb` on mine
cells, `AlreadyCleared` on open safe cells — on every board — and `Ok` on a
closed safe cell provided the board satisfies the construction invariant
`WF` (every board built by `Board.new` does).  The frozen claim asserted the
`Ok` case for every board; an ill-formed board panics instead, see
`C3_counterexample`. -/
theorem C3_clear_outcomes :
    (∀ (b : Board) (p : CellPosition), (∀ row ∈ b, row.length = b.length) →
      (b.length ≤ p.rowIndex ∨ b.length ≤ p.colIndex) →
      clear b p [] = .err b .CellNotFound) ∧
    (∀ (b : Board) (p : CellPosition) (c : Cell) (f : Bool),
      get_cell b p = some c → c.state = .bomb f →
      clear b p [] = .err b .ClearedBomb) ∧
    (∀ (b : Board) (p : CellPosition) (c : Cell) (f : Bool),
      get_cell b p = some c → c.state = .safe f true →
      clear b p [] = .err b .AlreadyCleared) ∧
    (∀ (bombs : List (List Bool)) (b : Board) (p : CellPosition) (c : Cell) (f : Bool),
      WF bombs b → get_cell b p = some c → c.state = .safe f false →
      ∃ b1, clear b p [] = .ok b1) := by
  refine ⟨?_, ?_, ?_, ?_⟩
  · intro b p hsq hoob
    have hnone := get_cell_none_of_oob hsq hoob
    unfold clear
    rw [clearFuel_succ, if_neg (List.not_mem_nil p)]
    simp only [hnone]
  · intro b p c f hc hst
    unfold clear
    rw [clearFuel_succ, if_neg (List.not_mem_nil p)]
    simp only [hc, hst]
  · intro b p c f hc hst
    unfold clear
    rw [clearFuel_succ, if_neg (List.not_mem_nil p)]
    simp only [hc, hst]
  · intro bombs b p c f hwf hc hst
    rcases clearFuel_WF bombs (closedSafeCount b + 1) b p [] hwf (Nat.le_refl _) with
      ⟨b1, hok, _, _⟩ | ⟨e, herr⟩
    · exact ⟨b1, hok⟩
    · rcases (clearFuel_err_elim herr).2.2 with
        ⟨_, hnone⟩ | ⟨c2, f2, _, hsome, hbomb⟩ | ⟨c2, f2, _, hsome, hopen2⟩
      · rw [hc] at hnone
        exact Option.noConfusion hnone
      · rw [hc] at hsome
        have hcc : c = c2 := Option.some_inj.1 hsome
        rw [← hcc, hst] at hbomb
        exact CellState.noConfusion hbomb
      · rw [hc] at hsome
        have hcc : c = c2 := Option.some_inj.1 hsome
        rw [← hcc, hst] at hopen2
        injection hopen2 with h1 h2
        exact Bool.noConfusion h2

/-- Counterexample to claim C3 as frozen: on `badExpansionBoard` — a
type-correct board value violating the construction invariant — position
(0, 0) resolves to a closed Safe cell, yet the top-level `clear` does not
return `Ok`: the expansion recurses onto the mine at (0, 1) and panics. -/
theorem C3_counterexample :
    (get_cell badExpansionBoard ⟨0, 0⟩).map isClosedSafe = some true ∧
    clear badExpansionBoard ⟨0, 0⟩ [] = .panicked ∧
    isOkResult (clear badExpansionBoard ⟨0, 0⟩ []) = false := by
  decide

/-- Witness for C3: a mine cell and an out-of-bounds position on 1x1 boards. -/
theorem C3_witness :
    clear (Board.new [[true]]) ⟨0, 0⟩ [] = .err (Board.new [[true]]) .ClearedBomb ∧
    clear (Board.new [[false]]) ⟨2, 0⟩ [] = .err (Board.new [[false]]) .CellNotFound :=
  ⟨C3_clear_outcomes.2.1 (Board.new [[true]]) ⟨0, 0⟩ (Cell.new 0 0 [[true]] true) false
      (by decide) (by decide),
    C3_clear_outcomes.1 (Board.new [[false]]) ⟨2, 0⟩ (by decide) (by decide)⟩

/-- Claim C4.  `is_won` is true exactly when no cell is Safe-and-closed; the
result only depends on each cell's closed-safe status (so it is unaffected by
flags and by the mine cells' states), and a board whose cells are all mines
is won. -/
theorem C4_is_won_spec :
    (∀ b : Board, is_won b = true ↔ ∀ c ∈ b.flatten, isClosedSafe c = false) ∧
    (∀ (b : Board) (f : Cell → Cell), (∀ c, isClosedSafe (f c) = isClosedSafe c) →
      is_won (b.map (List.map f)) = is_won b) ∧
    (∀ b : Board, (∀ c ∈ b.flatten, c.state.isBomb = true) → is_won b = true) := by
  have hfun : (fun cell : Cell => match cell.state with
      | .safe _ false => true
      | _ => false) = isClosedSafe := rfl
  have ha : ∀ b : Board, is_won b = true ↔ ∀ c ∈ b.flatten, isClosedSafe c = false := by
    intro b
    unfold is_won
    rw [hfun, Bool.not_eq_true', List.any_eq_false]
    constructor
    · intro h c hc
      have := h c hc
      simpa using this
    · intro h c hc
      simp [h c hc]
  refine ⟨ha, ?_, ?_⟩
  · intro b f hf
    have hcomp : isClosedSafe ∘ f = isClosedSafe := funext hf
    simp only [is_won, hfun, ← List.map_flatten, List.any_map, hcomp]
  · intro b hmine
    refine (ha b).2 (fun c hc => ?_)
    unfold isClosedSafe
    cases hst : c.state with
    | bomb fl => rfl
    | safe fl o =>
      have hbm := hmine c hc
      rw [hst] at hbm
      exact Bool.noConfusion hbm

/-- Witness for C4: flag-toggling every cell of a one-mine board does not
change `is_won`, and the all-mine 1x1 board is won. -/
theorem C4_witness :
    is_won ((Board.new [[true]]).map (List.map (fun c =>
      { c with state := match c.state with
        | .bomb _ => CellState.bomb true
        | .safe _ o => CellState.safe (!o) o }))) = is_won (Board.new [[true]]) ∧
    is_won (Board.new [[true]]) = true :=
  ⟨C4_is_won_spec.2.1 (Board.new [[true]]) _
      (fun c => by
        unfold isClosedSafe
        cases hst : c.state with
        | bomb fl => rfl
        | safe fl o => cases o <;> rfl),
    C4_is_won_spec.2.2 (Board.new [[true]]) (by decide)⟩

/-- Claim C5.  Whenever a top-level `clear` (empty traversed list) returns an
error — `CellNotFound`, `AlreadyCleared` or `ClearedBomb` — the board after
the call is the board before the call; in particular a mine cell never
becomes open. -/
theorem C5_err_leaves_board :
    ∀ (b : Board) (p : CellPosition) (b1 : Board) (e : ClearError),
      clear b p [] = .err b1 e → b1 = b := by
  intro b p b1 e h
  unfold clear at h
  exact (clearFuel_err_elim h).1

/-- Witness for C5: an out-of-bounds clear on the 1x1 board. -/
theorem C5_witness :
    clear (Board.new [[false]]) ⟨3, 3⟩ [] = .err (Board.new [[false]]) .CellNotFound ∧
    Board.new [[false]] = Board.new [[false]] :=
  ⟨by decide,
    C5_err_leaves_board (Board.new [[false]]) ⟨3, 3⟩ (Board.new [[false]]) .CellNotFound
      (by decide)⟩

/-- Claim C6.  On any board reachable from construction over a square mine
matrix, `clear` never hits the two `panic!` branches of the recursive loop:
no recursive call of the expansion step returns `CellNotFound` or
`ClearedBomb` (and `AlreadyCleared` from a recursive call is absorbed, as
`runClears` shows definitionally). -/
theorem C6_no_panic :
    ∀ (bombs : List (List Bool)) (b : Board), IsSquare bombs → Reaches bombs b →
      ∀ (p : CellPosition) (t : List CellPosition), clear b p t ≠ .panicked := by
  intro bombs b hsq hr p t h
  have hwf := WF_Reaches hsq hr
  unfold clear at h
  rcases clearFuel_WF bombs (closedSafeCount b + 1) b p t hwf (Nat.le_refl _) with
    ⟨b1, hok, _, _⟩ | ⟨e, herr⟩
  · rw [hok] at h
    exact ClearResult.noConfusion h
  · rw [herr] at h
    exact ClearResult.noConfusion h

/-- Witness for C6: the freshly constructed 1x1 mine-free board. -/
theorem C6_witness : clear (Board.new [[false]]) ⟨0, 0⟩ [] ≠ .panicked :=
  C6_no_panic [[false]] (Board.new [[false]]) (by decide) Reaches.base ⟨0, 0⟩ []

/-- Claim C7.  `clear` terminates on every input — every board, every
position, every traversed list: the model's fuel, one more than the number
of closed safe cells (the bound on the recursion depth, since every nesting
level first opens a closed safe cell), is never exhausted. -/
theorem C7_clear_total :
    ∀ (b : Board) (p : CellPosition) (t : List CellPosition), clear b p t ≠ .fuelOut :=
  fun b p t => clearFuel_ne_fuelOut (closedSafeCount b + 1) b p t (Nat.le_refl _)

/-- Claim C8.  On every board reachable from a freshly constructed board by
`clear` calls, no cell is Safe with both `flagged` and `open` set:
construction writes `flagged: false` everywhere and opening a cell always
writes `flagged: false`. -/
theorem C8_no_flag_open :
    ∀ (bombs : List (List Bool)) (b : Board), Reaches bombs b →
      ∀ c ∈ b.flatten, c.state ≠ .safe true true := by
  intro bombs b hr c hc hcon
  have hfl := unflagged_Reaches hr c hc
  rw [hcon] at hfl
  exact Bool.noConfusion hfl

/-- Witness for C8: the constructed 1x1 board's only cell. -/
theorem C8_witness :
    Cell.new 0 0 [[false]] false ∈ (Board.new [[false]]).flatten ∧
    (Cell.new 0 0 [[false]] false).state ≠ .safe true true :=
  ⟨by decide,
    C8_no_flag_open [[false]] (Board.new [[false]]) Reaches.base
      (Cell.new 0 0 [[false]] false) (by decide)⟩

/-- Claim C9.  Clearing (empty traversed list) an in-bounds closed Safe cell
with `bombs_around ≠ 0` returns `Ok`, opens exactly that cell (to
`open: true, flagged: false`), and changes no other cell — no recursive
expansion runs; concretely, on the 3x3 board with mines only at (0,0) and
(2,2), cell (1,1) has `bombs_around = 2` and clearing it opens only (1,1). -/
theorem C9_nonzero_opens_one :
    (∀ (b : Board) (p : CellPosition) (c : Cell) (f : Bool),
      get_cell b p = some c → c.state = .safe f false → c.bombs_around ≠ 0 →
      clear b p [] = .ok (openCell b p) ∧
      get_cell (openCell b p) p = some { c with state := .safe false true } ∧
      (∀ q : CellPosition, q ≠ p → get_cell (openCell b p) q = get_cell b q)) ∧
    ((get_cell (Board.new minesCorner3) ⟨1, 1⟩).map Cell.bombs_around = some 2 ∧
      clear (Board.new minesCorner3) ⟨1, 1⟩ [] =
        .ok (openCell (Board.new minesCorner3) ⟨1, 1⟩)) := by
  constructor
  · intro b p c f hc hst hnz
    have heq : clear b p [] = .ok (openCell b p) := by
      unfold clear
      rw [clearFuel_succ, if_neg (List.not_mem_nil p)]
      simp only [hc, hst, if_neg hnz]
    refine ⟨heq, ?_, ?_⟩
    · rw [get_cell_openCell_self, hc]
      rfl
    · intro q hq
      by_cases hrow : q.rowIndex = p.rowIndex
      · have hcol : q.colIndex ≠ p.colIndex := by
          intro hcc
          exact hq (by cases q; cases p; simp_all)
        exact get_cell_openCell_ne_col hcol
      · exact get_cell_openCell_ne_row hrow
  · constructor
    · decide
    · decide

/-- Witness for C9: the concrete scenario cell (1,1) of the corner-mines
board, through the general statement. -/
theorem C9_witness :
    clear (Board.new minesCorner3) ⟨1, 1⟩ [] =
      .ok (openCell (Board.new minesCorner3) ⟨1, 1⟩) :=
  (C9_nonzero_opens_one.1 (Board.new minesCorner3) ⟨1, 1⟩ (Cell.new 1 1 minesCorner3 false)
    false (by decide) (by decide) (by decide)).1

/-- Claim C10.  When the queried position is already in the traversed list,
`clear` returns `Ok` immediately and leaves the board unchanged — even if the
position is out of bounds or holds a mine — because the cycle guard runs
before the lookup and the state check. -/
theorem C10_cycle_guard :
    ∀ (b : Board) (p : CellPosition) (t : List CellPosition),
      p ∈ t → clear b p t = .ok b := by
  intro b p t hmem
  unfold clear
  rw [clearFuel_succ, if_pos hmem]

/-- Witness for C10: an out-of-bounds position already in the traversed list. -/
theorem C10_witness :
    clear (Board.new [[false]]) ⟨9, 9⟩ [⟨9, 9⟩] = .ok (Board.new [[false]]) :=
  C10_cycle_guard (Board.new [[false]]) ⟨9, 9⟩ [⟨9, 9⟩] (by decide)

end Minesweeper
